import Mathlib

/- Shallow embedding of src/usr/lib/sticky/note_buffer.py: the undo/redo action
model, the stack/composite machinery, and the internal markup codec.  Positions
are character offsets into the buffer (objects occupy one offset, as Gtk child
anchors do).  Machine behaviour that can raise in Python (attribute errors on
an object action whose checkbox state was never captured, indexing past the end
of the markup string) is modelled with Option / explicit error results. -/

namespace Sticky

/- The keys of TAG_DEFINITIONS, in dict (definition) order. -/
inductive TagName where
  | bold | italic | underline | link | red
deriving DecidableEq

def TAG_ORDER : List TagName := [.bold, .italic, .underline, .link, .red]

def TagName.str : TagName → String
  | .bold => "bold"
  | .italic => "italic"
  | .underline => "underline"
  | .link => "link"
  | .red => "red"

def str_to_tag (s : String) : Option TagName :=
  if s = "bold" then some .bold
  else if s = "italic" then some .italic
  else if s = "underline" then some .underline
  else if s = "link" then some .link
  else if s = "red" then some .red
  else none

/- The set of definition tags present on one character, as presence flags. -/
structure Tags where
  bold : Bool := false
  italic : Bool := false
  underline : Bool := false
  link : Bool := false
  red : Bool := false
deriving DecidableEq

def Tags.get (t : Tags) : TagName → Bool
  | .bold => t.bold
  | .italic => t.italic
  | .underline => t.underline
  | .link => t.link
  | .red => t.red

def Tags.set (t : Tags) : TagName → Bool → Tags
  | .bold, v => { t with bold := v }
  | .italic, v => { t with italic := v }
  | .underline, v => { t with underline := v }
  | .link, v => { t with link := v }
  | .red, v => { t with red := v }

/- One position of the buffer: a literal character or a child-anchor object
(checkbox with its checked state, or bullet). -/
inductive Elem where
  | ch (c : Char)
  | check (b : Bool)
  | bullet
deriving DecidableEq

abbrev Buffer := List (Elem × Tags)

/- Gtk text buffer primitives on the flat offset space.  get_iter_at_offset
clamps offsets to the buffer bounds, which List.take/List.drop reproduce. -/
def insertAt (p : Nat) (xs : List (Elem × Tags)) (b : Buffer) : Buffer :=
  b.take p ++ xs ++ b.drop p

def untagged (t : List Char) : Buffer :=
  t.map fun c => (Elem.ch c, {})

def insertText (p : Nat) (t : List Char) (b : Buffer) : Buffer :=
  insertAt p (untagged t) b

def deleteRange (s e : Nat) (b : Buffer) : Buffer :=
  b.take s ++ b.drop e

/- apply_tag_by_name / remove_tag_by_name over the half-open range of offsets
between s and e: set the presence flag of one tag on every element in range. -/
def set_tag_go (n : TagName) (v : Bool) (s e : Nat) : Nat → Buffer → Buffer
  | _, [] => []
  | i, (el, tg) :: rest =>
      (el, if s ≤ i ∧ i < e then tg.set n v else tg) :: set_tag_go n v s e (i + 1) rest

def applyTagRange (n : TagName) (s e : Nat) (b : Buffer) : Buffer :=
  set_tag_go n true s e 0 b

def removeTagRange (n : TagName) (s e : Nat) (b : Buffer) : Buffer :=
  set_tag_go n false s e 0 b

/- Reads whether tag n is present at offset i (false past the end). -/
def tag_on (b : Buffer) (i : Nat) (n : TagName) : Bool :=
  (b[i]?.map fun pr => pr.2.get n).getD false

/- Action model.  DeletionAction.deletion_type keeps the source's spelling
of the forward class. -/
inductive DeletionType where
  | selection | other | backward | foreward
deriving DecidableEq

inductive AnchorType where
  | check | bullet
deriving DecidableEq

inductive Action where
  | addition (position : Nat) (text : List Char)
  | deletion (position : Nat) (text : List Char) (deletion_type : DeletionType)
  | object_insert (position : Nat) (anchor_type : AnchorType)
      (checked : Option Bool) (is_addition : Bool)
  | tag_action (name : TagName) (start_off end_off : Nat) (is_addition : Bool)
  | composite (child_actions : List Action)

/- GenericAction.maybe_join returns False; AdditionAction and DeletionAction
override it.  A successful join mutates self in place, which is modelled by
returning the merged replacement for self. -/
def maybe_join (self other : Action) : Option Action :=
  match self, other with
  | .addition p t, .addition p' t' =>
      if p' = p + t.length then some (.addition p (t ++ t')) else none
  | .deletion p t dt, .deletion p' t' dt' =>
      if dt' ≠ dt then none
      else if dt = .foreward ∧ p' = p then some (.deletion p (t ++ t') dt)
      else if dt = .backward ∧ p' + 1 = p then some (.deletion p' (t' ++ t) dt)
      else none
  | _, _ => none

/- ObjectInsertAction.remove: deletes the single offset and, for a checkbox,
first captures the widget's checked state.  Reading the widget of a position
that does not hold a checkbox raises in Python, hence none. -/
def object_remove (p : Nat) (ty : AnchorType) (ch : Option Bool) (b : Buffer) :
    Option (Buffer × Option Bool) :=
  match ty with
  | .check =>
      match b[p]? with
      | some (.check c, _) => some (deleteRange p (p + 1) b, some c)
      | _ => none
  | .bullet => some (deleteRange p (p + 1) b, ch)

/- ObjectInsertAction.add: re-inserts the object; reading self.checked before
any remove captured it raises in Python, hence none. -/
def object_add (p : Nat) (ty : AnchorType) (ch : Option Bool) (b : Buffer) :
    Option Buffer :=
  match ty with
  | .check =>
      match ch with
      | some c => some (insertAt p [(.check c, {})] b)
      | none => none
  | .bullet => some (insertAt p [(.bullet, {})] b)

/- Action.undo / Action.redo applied to the buffer.  The action value is
returned alongside the buffer because the source mutates actions in place
(text joins, checkbox state capture on remove).  CompositeAction undoes its
children in reversed order and redoes them in the original order. -/
mutual

def Action.run_undo : Action → Buffer → Option (Buffer × Action)
  | .addition p t, b => some (deleteRange p (p + t.length) b, .addition p t)
  | .deletion p t dt, b => some (insertText p t b, .deletion p t dt)
  | .object_insert p ty ch true, b =>
      match object_remove p ty ch b with
      | some (b', ch') => some (b', .object_insert p ty ch' true)
      | none => none
  | .object_insert p ty ch false, b =>
      match object_add p ty ch b with
      | some b' => some (b', .object_insert p ty ch false)
      | none => none
  | .tag_action n s e true, b => some (removeTagRange n s e b, .tag_action n s e true)
  | .tag_action n s e false, b => some (applyTagRange n s e b, .tag_action n s e false)
  | .composite cs, b =>
      match run_undo_children cs b with
      | some (b', cs') => some (b', .composite cs')
      | none => none

def run_undo_children : List Action → Buffer → Option (Buffer × List Action)
  | [], b => some (b, [])
  | a :: rest, b =>
      match run_undo_children rest b with
      | none => none
      | some (b1, rest') =>
          match a.run_undo b1 with
          | none => none
          | some (b2, a') => some (b2, a' :: rest')

end

mutual

def Action.run_redo : Action → Buffer → Option (Buffer × Action)
  | .addition p t, b => some (insertText p t b, .addition p t)
  | .deletion p t dt, b => some (deleteRange p (p + t.length) b, .deletion p t dt)
  | .object_insert p ty ch true, b =>
      match object_add p ty ch b with
      | some b' => some (b', .object_insert p ty ch true)
      | none => none
  | .object_insert p ty ch false, b =>
      match object_remove p ty ch b with
      | some (b', ch') => some (b', .object_insert p ty ch' false)
      | none => none
  | .tag_action n s e true, b => some (applyTagRange n s e b, .tag_action n s e true)
  | .tag_action n s e false, b => some (removeTagRange n s e b, .tag_action n s e false)
  | .composite cs, b =>
      match run_redo_children cs b with
      | some (b', cs') => some (b', .composite cs')
      | none => none

def run_redo_children : List Action → Buffer → Option (Buffer × List Action)
  | [], b => some (b, [])
  | a :: rest, b =>
      match a.run_redo b with
      | none => none
      | some (b1, a') =>
          match run_redo_children rest b1 with
          | none => none
          | some (b2, rest') => some (b2, a' :: rest')

end

/- NoteBuffer state.  The source keeps the stacks as class attributes; per the
spec's component model each buffer instance owns its stacks, so they live in
one state record.  emitted counts content-changed signal emissions and log
collects warning prints. -/
structure NBState where
  buffer : Buffer := []
  undo_actions : List Action := []
  redo_actions : List Action := []
  in_composite : Int := 0
  composite_actions : List Action := []
  internal_action_count : Int := 0
  emitted : Nat := 0
  log : List String := []

def initial_state : NBState := {}

def undo_warning : String :=
  "warning: attempting to undo action when there is nothing to undo"

def redo_warning : String :=
  "warning: attempting to redo action when there is nothing to redo"

/- A Python call outcome: normal return, or a propagating exception.  The
state is carried in both cases since the object survives the exception. -/
inductive PyResult (α : Type) where
  | ok (val : α)
  | raised (msg : String) (val : α)
deriving DecidableEq

def PyResult.state {α : Type} : PyResult α → α
  | .ok a => a
  | .raised _ a => a

def trigger_changed (st : NBState) : NBState :=
  if st.internal_action_count = 0 then { st with emitted := st.emitted + 1 } else st

/- InternalActionHandler.__exit__: always decrement the counter; when it
returns to zero (and trigger_on_complete) schedule trigger_changed on the
idle loop.  The idle deferral is modelled as running the trigger here. -/
def internal_exit (trigger : Bool) (st : NBState) : NBState :=
  let st1 := { st with internal_action_count := st.internal_action_count - 1 }
  if st1.internal_action_count = 0 ∧ trigger then trigger_changed st1 else st1

/- with self.internal_action(trigger): body.  __exit__ runs on both the
normal and the exception path. -/
def internal_action (trigger : Bool) (f : NBState → PyResult NBState) (st : NBState) :
    PyResult NBState :=
  match f { st with internal_action_count := st.internal_action_count + 1 } with
  | .ok s2 => .ok (internal_exit trigger s2)
  | .raised e s2 => .raised e (internal_exit trigger s2)

/- Same context manager around a body that cannot raise. -/
def internal_action_pure (trigger : Bool) (f : NBState → NBState) (st : NBState) : NBState :=
  internal_exit trigger (f { st with internal_action_count := st.internal_action_count + 1 })

def add_undo_action (action : Action) (st : NBState) : NBState :=
  if st.in_composite ≠ 0 then
    { st with composite_actions := st.composite_actions ++ [action] }
  else
    { st with undo_actions := st.undo_actions ++ [action], redo_actions := [] }

def begin_composite_action (st : NBState) : NBState :=
  { st with in_composite := st.in_composite + 1 }

def end_composite_action (st : NBState) : NBState :=
  let st1 := { st with in_composite := st.in_composite - 1 }
  if st1.in_composite ≠ 0 ∨ st1.composite_actions.isEmpty then st1
  else
    let st2 :=
      match st1.composite_actions with
      | [a] => add_undo_action a st1
      | cs => add_undo_action (.composite cs) st1
    { st2 with composite_actions := [] }

def NoteBuffer.undo (st : NBState) : PyResult NBState :=
  if st.undo_actions.isEmpty then .ok { st with log := st.log ++ [undo_warning] }
  else
    internal_action true (fun s =>
      match s.undo_actions.getLast? with
      | none => .ok s
      | some a =>
          let s1 := { s with undo_actions := s.undo_actions.dropLast }
          match a.run_undo s1.buffer with
          | none => .raised "exception while replaying undo" s1
          | some (b', a') =>
              .ok { s1 with buffer := b', redo_actions := s1.redo_actions ++ [a'] }) st

def NoteBuffer.redo (st : NBState) : PyResult NBState :=
  if st.redo_actions.isEmpty then .ok { st with log := st.log ++ [redo_warning] }
  else
    internal_action true (fun s =>
      match s.redo_actions.getLast? with
      | none => .ok s
      | some a =>
          let s1 := { s with redo_actions := s.redo_actions.dropLast }
          match a.run_redo s1.buffer with
          | none => .raised "exception while replaying redo" s1
          | some (b', a') =>
              .ok { s1 with buffer := b', undo_actions := s1.undo_actions ++ [a'] }) st

def undoN : Nat → NBState → PyResult NBState
  | 0, st => .ok st
  | n + 1, st =>
      match NoteBuffer.undo st with
      | .ok st' => undoN n st'
      | .raised e s => .raised e s

def redoN : Nat → NBState → PyResult NBState
  | 0, st => .ok st
  | n + 1, st =>
      match NoteBuffer.redo st with
      | .ok st' => redoN n st'
      | .raised e s => .raised e s

/- add_tag: applies the tag, builds the TagAction, fires trigger_changed
directly, and returns the action for the caller to record. -/
def add_tag (name : TagName) (s e : Nat) (st : NBState) : NBState × Action :=
  (trigger_changed { st with buffer := applyTagRange name s e st.buffer },
   .tag_action name s e true)

/- add_check_button / add_bullet insert the child anchor inside their own
internal_action block and return the ObjectInsertAction (whose stored offset
is where the anchor actually landed, i.e. the clamped offset). -/
def add_check_button (location : Nat) (checked : Bool) (st : NBState) : NBState × Action :=
  (internal_action_pure true
     (fun s => { s with buffer := insertAt location [(.check checked, {})] s.buffer }) st,
   .object_insert (min location st.buffer.length) .check none true)

def add_bullet (location : Nat) (st : NBState) : NBState × Action :=
  (internal_action_pure true
     (fun s => { s with buffer := insertAt location [(.bullet, {})] s.buffer }) st,
   .object_insert (min location st.buffer.length) .bullet none true)

/- set_line_index(0): offset of the first character of the line containing
the given offset. -/
def line_start_idx (b : Buffer) : Nat → Nat
  | 0 => 0
  | p + 1 =>
      match b[p]? with
      | some (.ch c, _) => if c = '\n' then p + 1 else line_start_idx b p
      | _ => line_start_idx b p

/- maybe_repeat: when a newline is typed on a line that starts with a child
anchor, replicate the object at the insertion point and fold the pending
addition with the object insertion into one CompositeAction. -/
def maybe_repeat (location : Nat) (prev_action : Action) (st : NBState) : NBState × Bool :=
  match st.buffer[line_start_idx st.buffer location]? with
  | some (.check _, _) =>
      let pr := add_check_button location false st
      (add_undo_action (.composite [prev_action, pr.2]) pr.1, true)
  | some (.bullet, _) =>
      let pr := add_bullet location st
      (add_undo_action (.composite [prev_action, pr.2]) pr.1, true)
  | _ => (st, false)

/- Characters whose insertion triggers the URL-detection branch. -/
def url_separators : List (List Char) :=
  [['\n'], ['\t'], [' '], ['.'], [','], [';'], [':']]

/- get_slice(start, location, True): the flat characters before the insertion
point; child anchors read as the object replacement character. -/
def buffer_chars (b : Buffer) : List Char :=
  b.map fun pr =>
    match pr.1 with
    | .ch c => c
    | _ => Char.ofNat 0xFFFC

/- on_insert handler.  url_start is the get_url_start predicate from the
repository's util module, which is not part of the provided sources.
Modelled from the spec: link detection is "a pluggable predicate: does the
text ending at this position look like it completes a URL, and if so what is
its start offset", so it is passed in as a parameter.  The handler runs
before the default insertion is applied to the text storage. -/
def on_insert (url_start : List Char → Option Nat) (location : Nat) (text : List Char)
    (st : NBState) : NBState :=
  if st.internal_action_count ≠ 0 then st
  else
    internal_action_pure true (fun s0 =>
      let action := Action.addition location text
      let s1 :=
        if text ∈ url_separators then
          match url_start ((buffer_chars s0.buffer).take location) with
          | some mstart =>
              let pr := add_tag .link mstart location s0
              add_undo_action pr.2 pr.1
          | none => s0
        else s0
      let pr2 := if text = ['\n'] then maybe_repeat location action s1 else (s1, false)
      if pr2.2 then pr2.1
      else
        match pr2.1.undo_actions.getLast? with
        | none => add_undo_action action pr2.1
        | some top =>
            match maybe_join top action with
            | some merged =>
                { pr2.1 with undo_actions := pr2.1.undo_actions.dropLast ++ [merged] }
            | none => add_undo_action action pr2.1) st

/- One user typing event: the insert-text signal runs the handler first and
the default class closure then performs the insertion itself (also when the
handler bailed out early because of the suppression counter). -/
def user_insert (url_start : List Char → Option Nat) (location : Nat) (text : List Char)
    (st : NBState) : NBState :=
  let st1 := on_insert url_start location text st
  { st1 with buffer := insertText location text st1.buffer }

/- Markup encoder (get_internal_markup).  The scan visits the offsets before
the end iterator only; tag toggles are read per offset.  Gtk reports toggled
tag lists in tag-table order, modelled as TAG_ORDER. -/
def toggled_off (b : Buffer) (i : Nat) : List TagName :=
  if i = 0 then []
  else TAG_ORDER.filter fun n => tag_on b (i - 1) n && ! tag_on b i n

def toggled_on (b : Buffer) (i : Nat) : List TagName :=
  TAG_ORDER.filter fun n => tag_on b i n && (decide (i = 0) || ! tag_on b (i - 1) n)

def tag_token (n : TagName) : List Char :=
  ("#tag:" ++ n.str ++ ":").data

/- The end-tag while loop: pop the tag stack while both the stack and the
toggled-off list are non-empty; a popped tag that does not toggle off here is
held in unclosed and re-appended afterwards.  The first argument is the tag
stack in pop order (top first); the returned stack is in storage order. -/
def end_tags_loop : List TagName → List TagName → List TagName → List Char →
    List TagName × List Char
  | [], _, unclosed, out => (unclosed, out)
  | curRev, [], unclosed, out => (curRev.reverse ++ unclosed, out)
  | t :: rest, tg :: tgs, unclosed, out =>
      if t ∈ tg :: tgs then
        end_tags_loop rest ((tg :: tgs).erase t) unclosed (out ++ tag_token t)
      else
        end_tags_loop rest (tg :: tgs) (unclosed ++ [t]) out

/- The start-tag while loop pops the toggled-on list from its end, emitting a
marker and pushing onto the tag stack; the first argument is that list
reversed into pop order. -/
def start_tags_go : List TagName → List TagName → List Char → List TagName × List Char
  | cur, [], out => (cur, out)
  | cur, t :: rest, out => start_tags_go (cur ++ [t]) rest (out ++ tag_token t)

/- Content emission for one offset: a hash character is emitted as a single
hash (the source appends one character in its escape branch), objects emit
their tokens, anything else is copied. -/
def emit_elem : Elem → List Char
  | .ch c => if c = '#' then ['#'] else [c]
  | .check b => ("#check:" ++ (if b then "1" else "0")).data
  | .bullet => "#bullet:".data

def encode_go (b : Buffer) : List Nat → List TagName → List Char → List Char × List TagName
  | [], cur, out => (out, cur)
  | i :: rest, cur, out =>
      let pr1 := end_tags_loop cur.reverse (toggled_off b i) [] out
      let pr2 := start_tags_go pr1.1 (toggled_on b i).reverse pr1.2
      let out3 := pr2.2 ++ (match b[i]? with
        | some pr => emit_elem pr.1
        | none => [])
      encode_go b rest pr2.1 out3

/- Returns the markup text together with the tags still recorded as open when
the scan stops; a non-empty second component is the condition under which the
source prints its "tags were not properly closed" warning. -/
def get_internal_markup (b : Buffer) : List Char × List TagName :=
  encode_go b (List.range b.length) [] []

/- Markup decoder (set_from_internal_markup).  Python primitives: str.find
returns -1 when absent, and a slice whose upper bound is negative counts from
the end of the string. -/
def py_find (s : List Char) (c : Char) (start : Nat) : Int :=
  match (s.drop start).findIdx? (fun x => x = c) with
  | some i => ((start + i : Nat) : Int)
  | none => -1

def py_slice (s : List Char) (a : Nat) (b : Int) : List Char :=
  let bn : Nat := if b < 0 then (Int.ofNat s.length + b).toNat else b.toNat
  (s.take bn).drop a

/- apply_tag_by_name: an unknown tag name makes Gtk print a warning and apply
nothing. -/
def apply_tag_by_name (name : String) (s e : Nat) (b : Buffer) : Buffer :=
  match str_to_tag name with
  | some n => applyTagRange n s e b
  | none => b

inductive DecodeResult where
  | ok (b : Buffer)
  | error (msg : String)
  | diverge
deriving DecidableEq

/- The decode scan.  All insertion happens at the end iterator; the marks for
pending tag opens have left gravity, so each pending open is the buffer
length at the time the mark was created.  A hash introducing none of the
known tokens leaves current_index unchanged, so the source loops forever;
with fuel set to length + 1 (every productive step consumes at least two
characters) fuel exhaustion happens exactly on that stuck path and is
reported as diverge. -/
def decode_go (text : List Char) :
    Nat → Nat → Buffer → List (String × Nat) → DecodeResult
  | 0, _, _, _ => .diverge
  | fuel + 1, ci, b, open_tags =>
      let ni := py_find text '#' ci
      if ni = -1 then .ok (b ++ untagged (text.drop ci))
      else
        let next := ni.toNat
        let b1 := b ++ untagged ((text.take next).drop ci)
        if (text.take (next + 2)).drop next = ('#' :: '#' :: []) then
          decode_go text fuel (next + 2) (b1 ++ untagged ['#']) open_tags
        else if (text.take (next + 6)).drop next = ("#check").data then
          match text[next + 7]? with
          | none => .error "IndexError"
          | some c2 =>
              if c2.isDigit then
                decode_go text fuel (next + 8) (b1 ++ [(.check (c2 ≠ '0'), {})]) open_tags
              else .error "ValueError"
        else if (text.take (next + 7)).drop next = ("#bullet").data then
          decode_go text fuel (next + 8) (b1 ++ [(.bullet, {})]) open_tags
        else if (text.take (next + 4)).drop next = ("#tag").data then
          let eti := py_find text ':' (next + 6)
          let tn : String := String.mk (py_slice text (next + 5) eti)
          match open_tags.lookup tn with
          | some mark_off =>
              decode_go text fuel (next + 6 + tn.length)
                (apply_tag_by_name tn mark_off b1.length b1)
                (open_tags.eraseP (fun pr => pr.1 == tn))
          | none =>
              decode_go text fuel (next + 6 + tn.length) b1 ((tn, b1.length) :: open_tags)
        else
          decode_go text fuel ci b1 open_tags

def set_from_internal_markup (text : List Char) : DecodeResult :=
  decode_go text (text.length + 1) 0 [] []

/- The buffer of spec test 7: the text abc with bold applied over the whole
range of offsets 0 to 3. -/
def c1_buffer : Buffer :=
  applyTagRange .bold 0 3 (insertText 0 ('a' :: 'b' :: 'c' :: []) [])

def c6_state : NBState :=
  { initial_state with buffer := untagged ['a'], undo_actions := [.addition 0 ['a']] }

def c8_state : NBState := { initial_state with internal_action_count := 1 }

def c10_state : NBState :=
  { initial_state with
      buffer := untagged ['a']
      undo_actions := [.addition 0 ['a']]
      redo_actions := [.addition 0 ['x']] }

/- StepOk a b b2 says that a is a faithful record of one user edit taking the
buffer from b to b2: the action's stored offsets and text match the buffer
contents they were captured from.  A tag application is recorded where the
tag was absent on the range (and a removal where it was present), a bare
deletion covers plain untagged text (ranges with objects or tags are recorded
as composites by on_delete), and a composite threads its children in the
order they were performed. -/
mutual

def StepOk : Action → Buffer → Buffer → Prop
  | .addition p t, b, b2 => p ≤ b.length ∧ b2 = insertText p t b
  | .deletion p t _, b, b2 =>
      ∃ b1 br, b = b1 ++ untagged t ++ br ∧ p = b1.length ∧ b2 = b1 ++ br
  | .object_insert p .check ch true, b, b2 =>
      ch = none ∧ p ≤ b.length ∧ ∃ c, b2 = insertAt p [(.check c, {})] b
  | .object_insert p .bullet ch true, b, b2 =>
      ch = none ∧ p ≤ b.length ∧ b2 = insertAt p [(.bullet, {})] b
  | .object_insert p .check ch false, b, b2 =>
      ∃ c, ch = some c ∧
        ∃ b1 br, b = b1 ++ [(.check c, {})] ++ br ∧ p = b1.length ∧ b2 = b1 ++ br
  | .object_insert p .bullet ch false, b, b2 =>
      ch = none ∧ ∃ b1 br, b = b1 ++ [(.bullet, {})] ++ br ∧ p = b1.length ∧ b2 = b1 ++ br
  | .tag_action n s e true, b, b2 =>
      (∀ j, j < b.length → s ≤ j → j < e → tag_on b j n = false) ∧
        b2 = applyTagRange n s e b
  | .tag_action n s e false, b, b2 =>
      (∀ j, j < b.length → s ≤ j → j < e → tag_on b j n = true) ∧
        b2 = removeTagRange n s e b
  | .composite cs, b, b2 => StepListOk cs b b2

def StepListOk : List Action → Buffer → Buffer → Prop
  | [], b, b2 => b2 = b
  | a :: as, b, b2 => ∃ b1, StepOk a b b1 ∧ StepListOk as b1 b2

end

/- A trace records each user operation together with the buffer it
produced. -/
inductive Trace : Buffer → List (Action × Buffer) → Prop where
  | nil (b : Buffer) : Trace b []
  | cons {b b2 : Buffer} {a : Action} {rest : List (Action × Buffer)} :
      StepOk a b b2 → Trace b2 rest → Trace b ((a, b2) :: rest)

def final_buffer (b : Buffer) (tr : List (Action × Buffer)) : Buffer :=
  (tr.map Prod.snd).getLastD b

/- Chain b us bend: the undo stack us (top at the tail) undoes step by step
from bend back to b, each popped action redoing forward again. -/
inductive Chain : Buffer → List Action → Buffer → Prop where
  | nil (b : Buffer) : Chain b [] b
  | snoc {b bmid bend : Buffer} {as : List Action} {a a' : Action} :
      Chain b as bmid →
      Action.run_undo a bend = some (bmid, a') →
      Action.run_redo a' bmid = some (bend, a') →
      Chain b (as ++ [a]) bend

/- RedoChain b rs bend: the redo stack rs (popped from the tail) replays from
b forward to bend, each action returned unchanged by its redo. -/
inductive RedoChain : Buffer → List Action → Buffer → Prop where
  | nil (b : Buffer) : RedoChain b [] b
  | snoc {b bmid bend : Buffer} {front : List Action} {a : Action} :
      Action.run_redo a b = some (bmid, a) →
      RedoChain bmid front bend →
      RedoChain b (front ++ [a]) bend

def c7_trace : List (Action × Buffer) :=
  [(.addition 0 ['a'], insertText 0 ['a'] []),
   (.tag_action .bold 0 1 true, applyTagRange .bold 0 1 (insertText 0 ['a'] []))]

def c7_state : NBState :=
  { initial_state with
      buffer := final_buffer [] c7_trace
      undo_actions := c7_trace.map Prod.fst }

/- Characterisations of NoteBuffer.undo / NoteBuffer.redo on each branch. -/

theorem undo_empty_char (st : NBState) (h : st.undo_actions = []) :
    NoteBuffer.undo st = .ok { st with log := st.log ++ [undo_warning] } := by
  simp [NoteBuffer.undo, h]

theorem redo_empty_char (st : NBState) (h : st.redo_actions = []) :
    NoteBuffer.redo st = .ok { st with log := st.log ++ [redo_warning] } := by
  simp [NoteBuffer.redo, h]

theorem undo_ok_char (st : NBState) (us : List Action) (a : Action) (b' : Buffer)
    (a' : Action) (h : st.undo_actions = us ++ [a])
    (h2 : a.run_undo st.buffer = some (b', a')) :
    NoteBuffer.undo st = .ok { st with
      buffer := b'
      undo_actions := us
      redo_actions := st.redo_actions ++ [a']
      emitted := if st.internal_action_count = 0 then st.emitted + 1 else st.emitted } := by
  obtain ⟨bf, ua, ra, ic, ca, cnt, em, lg⟩ := st
  simp only at h h2
  subst h
  simp [NoteBuffer.undo, internal_action, internal_exit, trigger_changed, h2,
        List.getLast?_concat, List.dropLast_concat]
  split_ifs <;> rfl

theorem redo_ok_char (st : NBState) (rs : List Action) (a : Action) (b' : Buffer)
    (a' : Action) (h : st.redo_actions = rs ++ [a])
    (h2 : a.run_redo st.buffer = some (b', a')) :
    NoteBuffer.redo st = .ok { st with
      buffer := b'
      redo_actions := rs
      undo_actions := st.undo_actions ++ [a']
      emitted := if st.internal_action_count = 0 then st.emitted + 1 else st.emitted } := by
  obtain ⟨bf, ua, ra, ic, ca, cnt, em, lg⟩ := st
  simp only at h h2
  subst h
  simp [NoteBuffer.redo, internal_action, internal_exit, trigger_changed, h2,
        List.getLast?_concat, List.dropLast_concat]
  split_ifs <;> rfl

/-- C1: the round trip from_markup(to_markup(B)) fails on the code for a
buffer whose tag interval reaches the buffer end: the encoder loop stops
before the end offset, so the closing tag marker is never emitted (the tag is
left on the encoder's open-tag stack, the condition for the source's "not
properly closed" warning), and decoding the produced string yields the bare
text without the tag interval. -/
theorem C1_roundtrip_fails_at_trailing_tag :
    (get_internal_markup c1_buffer).1 = ("#tag:bold:abc").data ∧
    (get_internal_markup c1_buffer).2 = [.bold] ∧
    set_from_internal_markup (get_internal_markup c1_buffer).1
      = .ok (untagged ('a' :: 'b' :: 'c' :: [])) ∧
    untagged ('a' :: 'b' :: 'c' :: []) ≠ c1_buffer := by
  decide

/-- C2: two text additions merge exactly when the new action starts where the
old one ends, concatenating the texts; typing a then b at the immediately
following offset leaves one undo entry whose undo empties the buffer, while
typing b at a non-adjacent offset leaves two entries. -/
theorem C2_addition_merge :
    (∀ p p' : Nat, ∀ t t' : List Char,
      maybe_join (.addition p t) (.addition p' t') =
        if p' = p + t.length then some (.addition p (t ++ t')) else none) ∧
    (∀ u : List Char → Option Nat,
      (user_insert u 1 ['b'] (user_insert u 0 ['a'] initial_state)).undo_actions
        = [.addition 0 ['a', 'b']]) ∧
    (∀ u : List Char → Option Nat,
      (NoteBuffer.undo
        (user_insert u 1 ['b'] (user_insert u 0 ['a'] initial_state))).state.buffer = []) ∧
    (∀ u : List Char → Option Nat,
      (user_insert u 0 ['b'] (user_insert u 0 ['a'] initial_state)).undo_actions.length = 2) :=
  ⟨fun _ _ _ _ => rfl, fun _ => rfl, fun _ => rfl, fun _ => rfl⟩

/-- C3: two deletions merge only with equal deletion classes; the foreward
class needs the new position to equal the stored one and appends the text,
the backward class needs the new position to be one less, prepends the text
and adopts the new position, and the selection and other classes never
merge. -/
theorem C3_deletion_merge :
    (∀ p p' : Nat, ∀ t t' : List Char, ∀ dt dt' : DeletionType,
      maybe_join (.deletion p t dt) (.deletion p' t' dt') =
        if dt' = dt ∧ dt = .foreward ∧ p' = p then some (.deletion p (t ++ t') dt)
        else if dt' = dt ∧ dt = .backward ∧ p' + 1 = p then some (.deletion p' (t' ++ t) dt)
        else none) ∧
    (∀ p p' : Nat, ∀ t t' : List Char, ∀ dt' : DeletionType,
      maybe_join (.deletion p t .selection) (.deletion p' t' dt') = none) ∧
    (∀ p p' : Nat, ∀ t t' : List Char, ∀ dt' : DeletionType,
      maybe_join (.deletion p t .other) (.deletion p' t' dt') = none) := by
  refine ⟨fun p p' t t' dt dt' => ?_, fun p p' t t' dt' => ?_, fun p p' t t' dt' => ?_⟩
  · cases dt <;> cases dt' <;> simp [maybe_join]
  · cases dt' <;> simp [maybe_join]
  · cases dt' <;> simp [maybe_join]

/-- C4: outside a composite transaction, recording a new action appends it to
the undo stack and empties the redo stack. -/
theorem C4_push_clears_redo (st : NBState) (a : Action) (h : st.in_composite = 0) :
    (add_undo_action a st).redo_actions = [] ∧
    (add_undo_action a st).undo_actions = st.undo_actions ++ [a] := by
  simp [add_undo_action, h]

theorem C4_witness :
    initial_state.in_composite = 0 ∧
    (add_undo_action (.addition 0 []) initial_state).redo_actions = [] ∧
    (add_undo_action (.addition 0 []) initial_state).undo_actions
      = initial_state.undo_actions ++ [.addition 0 []] :=
  ⟨rfl, C4_push_clears_redo initial_state (.addition 0 []) rfl⟩

/-- C5: when the composite depth returns to zero, an empty pending list
pushes nothing, a singleton pending list pushes the bare action, and a
pending list of two or more actions pushes a single CompositeAction holding
them all (hence never one with fewer than two children); a transaction
wrapping three sub-edits yields exactly one new undo entry. -/
theorem C5_end_composite :
    (∀ st : NBState, st.in_composite = 1 → st.composite_actions = [] →
      end_composite_action st = { st with in_composite := 0 }) ∧
    (∀ st : NBState, ∀ a : Action, st.in_composite = 1 → st.composite_actions = [a] →
      end_composite_action st = { st with
        in_composite := 0
        undo_actions := st.undo_actions ++ [a]
        redo_actions := []
        composite_actions := [] }) ∧
    (∀ st : NBState, ∀ a b : Action, ∀ rest : List Action,
      st.in_composite = 1 → st.composite_actions = a :: b :: rest →
      end_composite_action st = { st with
        in_composite := 0
        undo_actions := st.undo_actions ++ [.composite (a :: b :: rest)]
        redo_actions := []
        composite_actions := [] } ∧ 2 ≤ (a :: b :: rest).length) ∧
    (∀ st : NBState, ∀ a1 a2 a3 : Action, st.in_composite = 0 → st.composite_actions = [] →
      (end_composite_action (add_undo_action a3 (add_undo_action a2
          (add_undo_action a1 (begin_composite_action st))))).undo_actions
        = st.undo_actions ++ [.composite [a1, a2, a3]]) := by
  refine ⟨fun st h1 h2 => ?_, fun st a h1 h2 => ?_, fun st a b rest h1 h2 => ?_,
    fun st a1 a2 a3 h1 h2 => ?_⟩
  · obtain ⟨bf, ua, ra, ic, ca, cnt, em, lg⟩ := st
    simp only at h1 h2
    subst h1 h2
    simp [end_composite_action]
  · obtain ⟨bf, ua, ra, ic, ca, cnt, em, lg⟩ := st
    simp only at h1 h2
    subst h1 h2
    simp [end_composite_action, add_undo_action]
  · obtain ⟨bf, ua, ra, ic, ca, cnt, em, lg⟩ := st
    simp only at h1 h2
    subst h1 h2
    refine ⟨?_, by simp⟩
    simp [end_composite_action, add_undo_action]
  · obtain ⟨bf, ua, ra, ic, ca, cnt, em, lg⟩ := st
    simp only at h1 h2
    subst h1 h2
    simp [end_composite_action, add_undo_action, begin_composite_action]

theorem C5_witness :
    initial_state.in_composite = 0 ∧
    initial_state.composite_actions = [] ∧
    (end_composite_action (add_undo_action (.addition 2 ['c']) (add_undo_action
        (.addition 1 ['b']) (add_undo_action (.addition 0 ['a'])
          (begin_composite_action initial_state))))).undo_actions
      = initial_state.undo_actions
        ++ [.composite [.addition 0 ['a'], .addition 1 ['b'], .addition 2 ['c']]] :=
  ⟨rfl, rfl,
    C5_end_composite.2.2.2 initial_state (.addition 0 ['a']) (.addition 1 ['b'])
      (.addition 2 ['c']) rfl rfl⟩

/-- C6: undo on an empty undo stack and redo on an empty redo stack log a
warning and return normally with the buffer and both stacks untouched;
otherwise undo pops the top undo action, applies its inverse to the buffer
and appends the (in-place updated) action to the redo stack, and redo does
the symmetric transfer. -/
theorem C6_undo_redo_edges :
    (∀ st : NBState, st.undo_actions = [] →
      NoteBuffer.undo st = .ok { st with log := st.log ++ [undo_warning] }) ∧
    (∀ st : NBState, st.redo_actions = [] →
      NoteBuffer.redo st = .ok { st with log := st.log ++ [redo_warning] }) ∧
    (∀ st : NBState, ∀ us : List Action, ∀ a : Action, ∀ b' : Buffer, ∀ a' : Action,
      st.undo_actions = us ++ [a] → a.run_undo st.buffer = some (b', a') →
      NoteBuffer.undo st = .ok { st with
        buffer := b'
        undo_actions := us
        redo_actions := st.redo_actions ++ [a']
        emitted := if st.internal_action_count = 0 then st.emitted + 1 else st.emitted }) ∧
    (∀ st : NBState, ∀ rs : List Action, ∀ a : Action, ∀ b' : Buffer, ∀ a' : Action,
      st.redo_actions = rs ++ [a] → a.run_redo st.buffer = some (b', a') →
      NoteBuffer.redo st = .ok { st with
        buffer := b'
        redo_actions := rs
        undo_actions := st.undo_actions ++ [a']
        emitted := if st.internal_action_count = 0 then st.emitted + 1 else st.emitted }) :=
  ⟨undo_empty_char, redo_empty_char, undo_ok_char, redo_ok_char⟩

theorem C6_witness :
    (initial_state.undo_actions = [] ∧
      NoteBuffer.undo initial_state
        = .ok { initial_state with log := initial_state.log ++ [undo_warning] }) ∧
    (c6_state.undo_actions = [.addition 0 ['a']] ∧
      Action.run_undo (.addition 0 ['a']) c6_state.buffer = some ([], .addition 0 ['a']) ∧
      NoteBuffer.undo c6_state = .ok { c6_state with
        buffer := []
        undo_actions := []
        redo_actions := c6_state.redo_actions ++ [.addition 0 ['a']]
        emitted := if c6_state.internal_action_count = 0
          then c6_state.emitted + 1 else c6_state.emitted }) :=
  ⟨⟨rfl, C6_undo_redo_edges.1 initial_state rfl⟩,
   ⟨rfl, rfl,
     C6_undo_redo_edges.2.2.1 c6_state [] (.addition 0 ['a']) [] (.addition 0 ['a'])
       rfl rfl⟩⟩

/-- C8: while the suppression counter is nonzero the insert handler records
nothing and leaves the state untouched; the internal_action scope restores
the counter on the normal return path and on the exception path alike; and
the content-changed signal is only ever emitted by trigger_changed in a
state whose counter is zero. -/
theorem C8_suppression :
    (∀ u : List Char → Option Nat, ∀ loc : Nat, ∀ tx : List Char, ∀ st : NBState,
      st.internal_action_count ≠ 0 → on_insert u loc tx st = st) ∧
    (∀ tr : Bool, ∀ f : NBState → PyResult NBState, ∀ st st2 : NBState,
      f { st with internal_action_count := st.internal_action_count + 1 } = .ok st2 →
      st2.internal_action_count = st.internal_action_count + 1 →
      (internal_action tr f st).state.internal_action_count = st.internal_action_count) ∧
    (∀ tr : Bool, ∀ f : NBState → PyResult NBState, ∀ st : NBState, ∀ e : String,
      ∀ st2 : NBState,
      f { st with internal_action_count := st.internal_action_count + 1 } = .raised e st2 →
      st2.internal_action_count = st.internal_action_count + 1 →
      ∃ st3 : NBState, internal_action tr f st = .raised e st3 ∧
        st3.internal_action_count = st.internal_action_count) ∧
    (∀ st : NBState, (trigger_changed st).emitted ≠ st.emitted →
      st.internal_action_count = 0) := by
  refine ⟨fun u loc tx st h => ?_, fun tr f st st2 hf hc => ?_,
    fun tr f st e st2 hf hc => ?_, fun st h => ?_⟩
  · simp [on_insert, h]
  · simp [internal_action, hf, PyResult.state, internal_exit, trigger_changed]
    split_ifs <;> simp [hc]
  · refine ⟨internal_exit tr st2, ?_, ?_⟩
    · simp [internal_action, hf]
    · simp [internal_exit, trigger_changed]
      split_ifs <;> simp [hc]
  · by_contra hne
    simp [trigger_changed, hne] at h

theorem C8_witness :
    ((1 : Int) ≠ 0 ∧ on_insert (fun _ => none) 0 [] c8_state = c8_state) ∧
    (∃ st3 : NBState,
      internal_action true (fun s => .raised "boom" s) initial_state = .raised "boom" st3 ∧
      st3.internal_action_count = 0) :=
  ⟨⟨by decide, C8_suppression.1 (fun _ => none) 0 [] c8_state (by decide)⟩,
   C8_suppression.2.2.1 true (fun s => .raised "boom" s) initial_state "boom"
     { initial_state with internal_action_count := 1 } rfl rfl⟩

/-- C9: a truncated check token makes the decoder raise while scanning, but a
tag marker whose trailing delimiter is never found does not: the scan slices
the name up to the last character of the string and completes normally. -/
theorem C9_malformed_decode :
    set_from_internal_markup ("#check").data = .error "IndexError" ∧
    set_from_internal_markup ("#check:").data = .error "IndexError" ∧
    set_from_internal_markup ("#tag:bold").data = .ok [] := by
  decide

/-- C9 counterexample: the markup string with an unterminated tag marker, the
claim's own example of a malformed token, is decoded to a normal result
rather than making the scan abort. -/
theorem C9_counterexample :
    set_from_internal_markup ("#tag:bold").data = .ok [] ∧
    ∀ msg : String, set_from_internal_markup ("#tag:bold").data ≠ .error msg := by
  have h0 : set_from_internal_markup ("#tag:bold").data = .ok [] := by decide
  exact ⟨h0, fun msg hmsg => by rw [h0] at hmsg; exact DecodeResult.noConfusion hmsg⟩

/-- C10: an insertion absorbed by merging into the top undo action leaves the
redo stack exactly as it was; in the concrete scenario, after an undo made
the redo stack non-empty, a typed insertion that merges keeps that redo entry
in place. -/
theorem C10_merge_keeps_redo :
    (∀ u : List Char → Option Nat, ∀ st : NBState, ∀ pos : Nat, ∀ c : Char,
      ∀ merged top : Action, ∀ us : List Action,
      st.internal_action_count = 0 →
      [c] ∉ url_separators →
      st.undo_actions = us ++ [top] →
      maybe_join top (.addition pos [c]) = some merged →
      (on_insert u pos [c] st).redo_actions = st.redo_actions ∧
      (on_insert u pos [c] st).undo_actions = us ++ [merged]) ∧
    (∀ u : List Char → Option Nat,
      ((NoteBuffer.undo (user_insert u 0 ['x'] (user_insert u 0 ['a']
          initial_state))).state).redo_actions = [.addition 0 ['x']] ∧
      (user_insert u 1 ['b'] ((NoteBuffer.undo (user_insert u 0 ['x'] (user_insert u 0 ['a']
          initial_state))).state)).redo_actions = [.addition 0 ['x']] ∧
      (user_insert u 1 ['b'] ((NoteBuffer.undo (user_insert u 0 ['x'] (user_insert u 0 ['a']
          initial_state))).state)).undo_actions = [.addition 0 ['a', 'b']]) := by
  refine ⟨fun u st pos c merged top us h0 hsep hu hm => ?_, fun u => ⟨rfl, rfl, rfl⟩⟩
  have hnl : ([c] : List Char) ≠ ['\n'] := by
    intro hh
    exact hsep (hh ▸ (by decide : (['\n'] : List Char) ∈ url_separators))
  obtain ⟨bf, ua, ra, ic, ca, cnt, em, lg⟩ := st
  simp only at h0 hu
  subst h0 hu
  simp [on_insert, internal_action_pure, internal_exit, trigger_changed, hsep, hnl,
        List.getLast?_concat, List.dropLast_concat, hm]

/- Inverse lemmas for the primitive buffer edits, used to show that each
well-formed action's undo and redo are mutually inverse. -/

theorem Tags.set_set (t : Tags) (n : TagName) (v w : Bool) :
    (t.set n v).set n w = t.set n w := by
  cases n <;> rfl

theorem Tags.set_get_self (t : Tags) (n : TagName) (v : Bool) (h : t.get n = v) :
    t.set n v = t := by
  cases n <;> (cases t; simp_all [Tags.set, Tags.get])

theorem untagged_length (t : List Char) : (untagged t).length = t.length := by
  simp [untagged]

theorem insert_delete (b : Buffer) (p : Nat) (xs : List (Elem × Tags)) (hp : p ≤ b.length) :
    deleteRange p (p + xs.length) (insertAt p xs b) = b := by
  have h1 : (b.take p).length = p := by
    simp [List.length_take, Nat.min_eq_left hp]
  have h2 : (b.take p ++ xs).length = p + xs.length := by
    simp [List.length_append, h1]
  unfold insertAt deleteRange
  rw [List.append_assoc, List.take_left' h1, ← List.append_assoc, List.drop_left' h2]
  exact List.take_append_drop p b

theorem insert_middle (b1 b2 : Buffer) (xs : List (Elem × Tags)) :
    insertAt b1.length xs (b1 ++ b2) = b1 ++ xs ++ b2 := by
  unfold insertAt
  rw [List.take_left, List.drop_left]

theorem delete_middle (b1 xs b2 : Buffer) :
    deleteRange b1.length (b1.length + xs.length) (b1 ++ xs ++ b2) = b1 ++ b2 := by
  have h2 : (b1 ++ xs).length = b1.length + xs.length := by
    simp [List.length_append]
  unfold deleteRange
  rw [List.append_assoc, List.take_left, ← List.append_assoc, List.drop_left' h2]

theorem insert_delete_one (b : Buffer) (p : Nat) (x : Elem × Tags) (hp : p ≤ b.length) :
    deleteRange p (p + 1) (insertAt p [x] b) = b := by
  simpa using insert_delete b p [x] hp

theorem delete_middle_one (b1 : Buffer) (x : Elem × Tags) (br : Buffer) :
    deleteRange b1.length (b1.length + 1) (b1 ++ [x] ++ br) = b1 ++ br := by
  simpa using delete_middle b1 [x] br

theorem delete_middle_cons (b1 : Buffer) (x : Elem × Tags) (br : Buffer) :
    deleteRange b1.length (b1.length + 1) (b1 ++ x :: br) = b1 ++ br := by
  simpa [List.append_assoc] using delete_middle_one b1 x br

theorem getElem?_middle (b1 : Buffer) (x : Elem × Tags) (b2 : Buffer) :
    (b1 ++ [x] ++ b2)[b1.length]? = some x := by
  rw [List.append_assoc, List.getElem?_append_right (Nat.le_refl _)]
  simp

theorem getElem?_insertAt_self (b : Buffer) (p : Nat) (x : Elem × Tags) (hp : p ≤ b.length) :
    (insertAt p [x] b)[p]? = some x := by
  have h1 : (b.take p).length = p := by
    simp [List.length_take, Nat.min_eq_left hp]
  unfold insertAt
  rw [show b.take p ++ [x] ++ b.drop p = b.take p ++ ([x] ++ b.drop p) from
        List.append_assoc _ _ _,
      List.getElem?_append_right (by omega)]
  simp [h1]

theorem tag_on_cons_zero (el : Elem) (tg : Tags) (rest : Buffer) (n : TagName) :
    tag_on ((el, tg) :: rest) 0 n = tg.get n := by
  simp [tag_on]

theorem tag_on_cons_succ (x : Elem × Tags) (rest : Buffer) (j : Nat) (n : TagName) :
    tag_on (x :: rest) (j + 1) n = tag_on rest j n := by
  simp [tag_on]

theorem set_tag_remove_apply (n : TagName) (s e : Nat) :
    ∀ (b : Buffer) (i : Nat),
      (∀ j, j < b.length → s ≤ i + j → i + j < e → tag_on b j n = false) →
      set_tag_go n false s e i (set_tag_go n true s e i b) = b := by
  intro b
  induction b with
  | nil => intro i _; rfl
  | cons hd rest ih =>
      intro i h
      obtain ⟨el, tg⟩ := hd
      have htail : set_tag_go n false s e (i + 1) (set_tag_go n true s e (i + 1) rest)
          = rest := by
        refine ih (i + 1) fun j hj h1 h2 => ?_
        have := h (j + 1) (by simpa using Nat.succ_lt_succ hj) (by omega) (by omega)
        simpa [tag_on_cons_succ] using this
      by_cases hr : s ≤ i ∧ i < e
      · have hget : tg.get n = false := by
          have h0 := h 0 (by simp) (by simpa using hr.1) (by simpa using hr.2)
          simpa [tag_on_cons_zero] using h0
        simp [set_tag_go, hr, Tags.set_set, Tags.set_get_self tg n false hget, htail]
      · simp [set_tag_go, hr, htail]

theorem set_tag_apply_remove (n : TagName) (s e : Nat) :
    ∀ (b : Buffer) (i : Nat),
      (∀ j, j < b.length → s ≤ i + j → i + j < e → tag_on b j n = true) →
      set_tag_go n true s e i (set_tag_go n false s e i b) = b := by
  intro b
  induction b with
  | nil => intro i _; rfl
  | cons hd rest ih =>
      intro i h
      obtain ⟨el, tg⟩ := hd
      have htail : set_tag_go n true s e (i + 1) (set_tag_go n false s e (i + 1) rest)
          = rest := by
        refine ih (i + 1) fun j hj h1 h2 => ?_
        have := h (j + 1) (by simpa using Nat.succ_lt_succ hj) (by omega) (by omega)
        simpa [tag_on_cons_succ] using this
      by_cases hr : s ≤ i ∧ i < e
      · have hget : tg.get n = true := by
          have h0 := h 0 (by simp) (by simpa using hr.1) (by simpa using hr.2)
          simpa [tag_on_cons_zero] using h0
        simp [set_tag_go, hr, Tags.set_set, Tags.set_get_self tg n true hget, htail]
      · simp [set_tag_go, hr, htail]

theorem remove_apply_tag (n : TagName) (s e : Nat) (b : Buffer)
    (h : ∀ j, j < b.length → s ≤ j → j < e → tag_on b j n = false) :
    removeTagRange n s e (applyTagRange n s e b) = b := by
  unfold removeTagRange applyTagRange
  exact set_tag_remove_apply n s e b 0 (by simpa using h)

theorem apply_remove_tag (n : TagName) (s e : Nat) (b : Buffer)
    (h : ∀ j, j < b.length → s ≤ j → j < e → tag_on b j n = true) :
    applyTagRange n s e (removeTagRange n s e b) = b := by
  unfold removeTagRange applyTagRange
  exact set_tag_apply_remove n s e b 0 (by simpa using h)

/- Each well-formed action's undo maps the post-state back to the pre-state,
and the (possibly in-place updated) action's redo maps it forward again. -/
mutual

theorem step_inverse : ∀ (a : Action) (b b2 : Buffer), StepOk a b b2 →
    ∃ a', a.run_undo b2 = some (b, a') ∧ a'.run_redo b = some (b2, a')
  | .addition p t, b, b2, h => by
      obtain ⟨hp, rfl⟩ := h
      refine ⟨.addition p t, ?_, by simp [Action.run_redo, insertText]⟩
      simp only [Action.run_undo, insertText, Option.some.injEq, Prod.mk.injEq, and_true]
      rw [← untagged_length t]
      exact insert_delete b p (untagged t) hp
  | .deletion p t dt, b, b2, h => by
      obtain ⟨b1, br, rfl, rfl, rfl⟩ := h
      refine ⟨.deletion b1.length t dt, ?_, ?_⟩
      · simp only [Action.run_undo, insertText, Option.some.injEq, Prod.mk.injEq, and_true]
        exact insert_middle b1 br (untagged t)
      · simp only [Action.run_redo, Option.some.injEq, Prod.mk.injEq, and_true]
        rw [← untagged_length t]
        exact delete_middle b1 (untagged t) br
  | .object_insert p .check ch true, b, b2, h => by
      obtain ⟨rfl, hp, c, rfl⟩ := h
      refine ⟨.object_insert p .check (some c) true, ?_, ?_⟩
      · simp only [Action.run_undo, object_remove, getElem?_insertAt_self b p _ hp]
        simp [insert_delete_one b p _ hp]
      · simp [Action.run_redo, object_add]
  | .object_insert p .bullet ch true, b, b2, h => by
      obtain ⟨rfl, hp, rfl⟩ := h
      refine ⟨.object_insert p .bullet none true, ?_, ?_⟩
      · simp [Action.run_undo, object_remove, insert_delete_one b p _ hp]
      · simp [Action.run_redo, object_add]
  | .object_insert p .check ch false, b, b2, h => by
      obtain ⟨c, rfl, b1, br, rfl, rfl, rfl⟩ := h
      refine ⟨.object_insert b1.length .check (some c) false, ?_, ?_⟩
      · simp only [Action.run_undo, object_add, Option.some.injEq, Prod.mk.injEq, and_true]
        exact insert_middle b1 br [(.check c, {})]
      · simp only [Action.run_redo, object_remove, getElem?_middle b1 _ br]
        simp [delete_middle_cons b1 _ br]
  | .object_insert p .bullet ch false, b, b2, h => by
      obtain ⟨rfl, b1, br, rfl, rfl, rfl⟩ := h
      refine ⟨.object_insert b1.length .bullet none false, ?_, ?_⟩
      · simp only [Action.run_undo, object_add, Option.some.injEq, Prod.mk.injEq, and_true]
        exact insert_middle b1 br [(.bullet, {})]
      · simp [Action.run_redo, object_remove, delete_middle_cons b1 _ br]
  | .tag_action n s e true, b, b2, h => by
      obtain ⟨hfree, rfl⟩ := h
      exact ⟨.tag_action n s e true,
        by simp [Action.run_undo, remove_apply_tag n s e b hfree],
        by simp [Action.run_redo]⟩
  | .tag_action n s e false, b, b2, h => by
      obtain ⟨hpre, rfl⟩ := h
      exact ⟨.tag_action n s e false,
        by simp [Action.run_undo, apply_remove_tag n s e b hpre],
        by simp [Action.run_redo]⟩
  | .composite cs, b, b2, h => by
      obtain ⟨cs', h1, h2⟩ := steplist_inverse cs b b2 h
      exact ⟨.composite cs', by simp [Action.run_undo, h1], by simp [Action.run_redo, h2]⟩

theorem steplist_inverse : ∀ (cs : List Action) (b b2 : Buffer), StepListOk cs b b2 →
    ∃ cs', run_undo_children cs b2 = some (b, cs') ∧
      run_redo_children cs' b = some (b2, cs')
  | [], b, b2, h => by
      rw [StepListOk] at h
      subst h
      exact ⟨[], by simp [run_undo_children], by simp [run_redo_children]⟩
  | a :: as, b, b2, h => by
      rw [StepListOk] at h
      obtain ⟨b1, ha, has⟩ := h
      obtain ⟨as', h1, h2⟩ := steplist_inverse as b1 b2 has
      obtain ⟨a', g1, g2⟩ := step_inverse a b b1 ha
      exact ⟨a' :: as', by simp [run_undo_children, h1, g1],
        by simp [run_redo_children, g2, h2]⟩

end

theorem chain_cons_front {bmid : Buffer} {ms : List Action} {bend : Buffer}
    (hc : Chain bmid ms bend) :
    ∀ {b : Buffer} {a a' : Action},
      Action.run_undo a bmid = some (b, a') →
      Action.run_redo a' b = some (bmid, a') →
      Chain b (a :: ms) bend := by
  induction hc with
  | nil =>
      intro b a a' h1 h2
      simpa using Chain.snoc (Chain.nil b) h1 h2
  | snoc hch hu hr ih =>
      intro b a a' h1 h2
      simpa using Chain.snoc (ih h1 h2) hu hr

theorem redo_chain_cons_front {b : Buffer} {rs : List Action} {bmid : Buffer}
    (hc : RedoChain b rs bmid) :
    ∀ {a : Action} {bend : Buffer},
      Action.run_redo a bmid = some (bend, a) →
      RedoChain b (a :: rs) bend := by
  induction hc with
  | nil =>
      intro a bend h
      simpa using RedoChain.snoc h (RedoChain.nil bend)
  | snoc hx hrc ih =>
      intro a bend h
      simpa using RedoChain.snoc hx (ih h)

theorem final_buffer_cons (b b2 : Buffer) (a : Action) (rest : List (Action × Buffer)) :
    final_buffer b ((a, b2) :: rest) = final_buffer b2 rest := by
  simp only [final_buffer, List.map_cons, List.getLastD_cons]

theorem trace_chain {b : Buffer} {tr : List (Action × Buffer)} (h : Trace b tr) :
    Chain b (tr.map Prod.fst) (final_buffer b tr) := by
  induction h with
  | nil b0 => exact Chain.nil b0
  | cons hstep htr ih =>
      obtain ⟨a', h1, h2⟩ := step_inverse _ _ _ hstep
      rw [List.map_cons, final_buffer_cons]
      exact chain_cons_front ih h1 h2

/- Undoing every entry of a Chain-shaped undo stack succeeds, drains the
stack, restores the initial buffer, and leaves the undone actions on the
redo stack as a RedoChain back to the final buffer. -/
theorem undo_phase {b0 : Buffer} {us : List Action} {bend : Buffer}
    (hc : Chain b0 us bend) :
    ∀ st : NBState, st.buffer = bend → st.undo_actions = us →
    ∃ st' : NBState, ∃ radd : List Action,
      undoN us.length st = .ok st' ∧
      st'.buffer = b0 ∧
      st'.undo_actions = [] ∧
      st'.redo_actions = st.redo_actions ++ radd ∧
      radd.length = us.length ∧
      RedoChain b0 radd bend ∧
      st'.in_composite = st.in_composite ∧
      st'.composite_actions = st.composite_actions ∧
      st'.internal_action_count = st.internal_action_count := by
  induction hc with
  | nil =>
      intro st hb hu
      exact ⟨st, [], by simp [hu, undoN], hb, hu, by simp, rfl,
        RedoChain.nil _, rfl, rfl, rfl⟩
  | snoc hch hu1 hr1 ih =>
      intro st hb hu
      rename_i bmid bend2 as x x'
      have hstep : NoteBuffer.undo st = .ok { st with
          buffer := bmid
          undo_actions := as
          redo_actions := st.redo_actions ++ [x']
          emitted := if st.internal_action_count = 0 then st.emitted + 1 else st.emitted } :=
        undo_ok_char st as x bmid x' hu (by rw [hb]; exact hu1)
      obtain ⟨st', radd', g1, g2, g3, g4, g5, g6, g7, g8, g9⟩ :=
        ih { st with
          buffer := bmid
          undo_actions := as
          redo_actions := st.redo_actions ++ [x']
          emitted := if st.internal_action_count = 0 then st.emitted + 1 else st.emitted }
          rfl rfl
      refine ⟨st', x' :: radd', ?_, g2, g3, ?_, ?_, ?_, g7, g8, g9⟩
      · rw [List.length_append, List.length_singleton]
        show undoN (as.length + 1) st = .ok st'
        rw [undoN, hstep]
        exact g1
      · rw [g4]
        simp
      · simp [g5]
      · exact redo_chain_cons_front g6 hr1

/- Redoing every entry of a RedoChain-shaped redo stack succeeds, drains it,
and replays the buffer forward to the final state. -/
theorem redo_phase {b : Buffer} {rs : List Action} {bend : Buffer}
    (hc : RedoChain b rs bend) :
    ∀ st : NBState, st.buffer = b → st.redo_actions = rs →
    ∃ st' : NBState,
      redoN rs.length st = .ok st' ∧
      st'.buffer = bend ∧
      st'.redo_actions = [] ∧
      st'.undo_actions = st.undo_actions ++ rs.reverse := by
  induction hc with
  | nil =>
      intro st hb hr
      exact ⟨st, by simp [hr, redoN], hb, hr, by simp⟩
  | snoc hx hrc ih =>
      intro st hb hr
      rename_i bmid bend2 front x
      have hstep : NoteBuffer.redo st = .ok { st with
          buffer := bmid
          redo_actions := front
          undo_actions := st.undo_actions ++ [x]
          emitted := if st.internal_action_count = 0 then st.emitted + 1 else st.emitted } :=
        redo_ok_char st front x bmid x hr (by rw [hb]; exact hx)
      obtain ⟨st', g1, g2, g3, g4⟩ :=
        ih { st with
          buffer := bmid
          redo_actions := front
          undo_actions := st.undo_actions ++ [x]
          emitted := if st.internal_action_count = 0 then st.emitted + 1 else st.emitted }
          rfl rfl
      refine ⟨st', ?_, g2, g3, ?_⟩
      · rw [List.length_append, List.length_singleton]
        show redoN (front.length + 1) st = .ok st'
        rw [redoN, hstep]
        exact g1
      · rw [g4]
        simp

/-- C7: for every trace of user operations from the empty buffer, each
recorded as one undo entry (composites undoing their children in reverse
order and redoing them in original order), undoing as many times as there
are entries succeeds and restores the empty buffer with an empty undo stack,
and then redoing the same number of times succeeds and restores the final
buffer exactly, with the redo stack drained. -/
theorem C7_undo_redo_symmetry (tr : List (Action × Buffer)) (st : NBState)
    (htr : Trace [] tr)
    (hb : st.buffer = final_buffer [] tr)
    (hu : st.undo_actions = tr.map Prod.fst)
    (hr : st.redo_actions = []) :
    ∃ mid : NBState,
      undoN tr.length st = .ok mid ∧
      mid.buffer = [] ∧
      mid.undo_actions = [] ∧
      ∃ fin : NBState,
        redoN tr.length mid = .ok fin ∧
        fin.buffer = final_buffer [] tr ∧
        fin.redo_actions = [] := by
  have hchain := trace_chain htr
  obtain ⟨mid, radd, h1, h2, h3, h4, h5, h6, _, _, _⟩ := undo_phase hchain st hb hu
  have hmidr : mid.redo_actions = radd := by rw [h4, hr]; simp
  obtain ⟨fin, g1, g2, g3, _⟩ := redo_phase h6 mid h2 hmidr
  refine ⟨mid, ?_, h2, h3, fin, ?_, g2, g3⟩
  · rw [← List.length_map tr Prod.fst]
    exact h1
  · rw [show tr.length = radd.length from by rw [h5, List.length_map]]
    exact g1

theorem C7_witness :
    Trace [] c7_trace ∧
    ∃ mid : NBState,
      undoN c7_trace.length c7_state = .ok mid ∧
      mid.buffer = [] ∧
      mid.undo_actions = [] ∧
      ∃ fin : NBState,
        redoN c7_trace.length mid = .ok fin ∧
        fin.buffer = final_buffer [] c7_trace ∧
        fin.redo_actions = [] :=
  have h1 : StepOk (.addition 0 ['a']) [] (insertText 0 ['a'] []) := by
    simp [StepOk]
  have h2 : StepOk (.tag_action .bold 0 1 true) (insertText 0 ['a'] [])
      (applyTagRange .bold 0 1 (insertText 0 ['a'] [])) := by
    simp only [StepOk]
    exact ⟨by decide, trivial⟩
  have htr : Trace [] c7_trace := Trace.cons h1 (Trace.cons h2 (Trace.nil _))
  ⟨htr, C7_undo_redo_symmetry c7_trace c7_state htr rfl rfl rfl⟩

theorem C10_witness :
    c10_state.internal_action_count = 0 ∧
    (['b'] : List Char) ∉ url_separators ∧
    c10_state.undo_actions = [] ++ [.addition 0 ['a']] ∧
    maybe_join (.addition 0 ['a']) (.addition 1 ['b']) = some (.addition 0 ['a', 'b']) ∧
    (on_insert (fun _ => none) 1 ['b'] c10_state).redo_actions = c10_state.redo_actions ∧
    (on_insert (fun _ => none) 1 ['b'] c10_state).undo_actions = [] ++ [.addition 0 ['a', 'b']] :=
  ⟨rfl, by decide, rfl, rfl,
    C10_merge_keeps_redo.1 (fun _ => none) c10_state 1 'b' (.addition 0 ['a', 'b'])
      (.addition 0 ['a']) [] rfl (by decide) rfl rfl⟩

end Sticky
